import Mathlib

/-!
Shallow embedding of the progress-analytics engine of the OpenSpeak client
(`src/pages/progress.tsx`): feedback normalization, score resolution,
time-series aggregation (averages, streak, most-improved), series building
with moving-average smoothing, chart scales with hover resolution, and CSV
export.  Scores are modelled as exact rationals and timestamps as integer
milliseconds (a DST-free local clock).
-/

namespace OpenSpeak

/-- The five fixed feedback categories. -/
inductive Cat where
  | opening
  | content
  | delivery
  | grammar
  | overall
deriving DecidableEq

/-- A feedback section: absent (`missing`), plain prose (`text`), or a
structured object.  Of the structured object only the `score` field matters
to the score resolver; a `score` that is absent, `null` or `undefined` in
the source all behave identically under `??`, so they are merged into
`none`. -/
inductive Section where
  | missing
  | text (s : String)
  | obj (score : Option ℚ)
deriving DecidableEq

/-- Canonical feedback value: five sections plus the optional `scores`
block.  An absent `scores` block behaves like the constantly-`none` map
under `fb.scores?.[key]`, so it is modelled as a total function. -/
structure Feedback where
  opening : Section
  content : Section
  delivery : Section
  grammar : Section
  overall : Section
  scores : Cat → Option ℚ

/-- Field access `feedback[key]` for a category key. -/
def Feedback.sec (fb : Feedback) : Cat → Section
  | Cat.opening => fb.opening
  | Cat.content => fb.content
  | Cat.delivery => fb.delivery
  | Cat.grammar => fb.grammar
  | Cat.overall => fb.overall

/-- The inline candidate of `scoreOf`: `sec.score` when the section is a
structured object (the `"score" in sec` guard), `null` otherwise. -/
def inlineOf (fb : Feedback) (k : Cat) : Option ℚ :=
  match fb.sec k with
  | Section.obj s => s
  | _ => none

/-- Embedding of `scoreOf` from `progress.tsx`: `(inline ?? fromBlock) ?? null`,
where `inline` is the score carried by the section itself and `fromBlock` is
`fb.scores?.[key]`.  The trailing `?? null` is the identity on `Option`. -/
def scoreOf (fb : Option Feedback) (k : Cat) : Option ℚ :=
  match fb with
  | none => none
  | some fb =>
      let inline := inlineOf fb k
      let fromBlock := fb.scores k
      inline.orElse fun _ => fromBlock

/-- One analyzed speech as held by the page after normalization.
`created_at` is the parsed timestamp in (local) epoch milliseconds. -/
structure HistoryItem where
  id : ℤ
  transcript : Option String
  created_at : Option ℤ
  feedback : Option Feedback

/-- Milliseconds per day (`24*3600*1000`). -/
def msPerDay : ℤ := 86400000

/-- JavaScript `Math.round`: round half toward positive infinity. -/
def jsRound (q : ℚ) : ℤ := ⌊q + 1 / 2⌋

/-- Rounding to one decimal place: `Math.round(x * 10) / 10`. -/
def round1 (q : ℚ) : ℚ := (jsRound (q * 10) : ℚ) / 10

/-- The range control: `"7" | "30" | "90" | "all"`. -/
inductive Range where
  | d7
  | d30
  | d90
  | all
deriving DecidableEq

/-- Window length `parseInt(range, 10)` for the finite ranges; `none` for
`"all"`. -/
def rangeDays : Range → Option ℤ
  | Range.d7 => some 7
  | Range.d30 => some 30
  | Range.d90 => some 90
  | Range.all => none

/-- The `filtered` memo: keep records whose timestamp is at least
`now - days*24*3600*1000`; records lacking `created_at` are dropped by any
finite window; `all` keeps everything. -/
def filteredHist (hist : List HistoryItem) (now : ℤ) (r : Range) : List HistoryItem :=
  match rangeDays r with
  | none => hist
  | some days =>
      let cutoff := now - days * msPerDay
      hist.filter fun it =>
        match it.created_at with
        | some t => decide (cutoff ≤ t)
        | none => false

/-- The `base` of the `totals` memo: `filtered.length ? filtered : sorted`
(fall back to the whole history when the window filters everything out). -/
def totalsBase (hist : List HistoryItem) (now : ℤ) (r : Range) : List HistoryItem :=
  let f := filteredHist hist now r
  if f.length = 0 then hist else f

/-- Embedding of `getAvg` from the `totals` memo, over an explicit base
list: `null` when
the base is empty or has no resolved scores for the category, otherwise the
mean of the resolved scores rounded to one decimal. -/
def getAvg (base : List HistoryItem) (k : Cat) : Option ℚ :=
  if base.length = 0 then none
  else
    let nums := base.filterMap fun it => scoreOf it.feedback k
    if nums.length = 0 then none
    else some (round1 (nums.sum / nums.length))

/-- A category average as displayed: `getAvg` over the fallback base. -/
def categoryAvg (hist : List HistoryItem) (now : ℤ) (r : Range) (k : Cat) : Option ℚ :=
  getAvg (totalsBase hist now r) k

/-- Day bucketing `new Date(y, m, d).getTime()`: the local-midnight
timestamp of the calendar day containing `t` (DST-free local clock, floor
division). -/
def dayStart (t : ℤ) : ℤ := Int.fdiv t msPerDay * msPerDay

/-- The deduplicated local-midnight day buckets of the entire history: the
source maps each record to its bucket timestamp (`null` without
`created_at`) and applies `filter(Boolean)`, which drops both the `null`
placeholders (here: the `filterMap`) and any bucket whose timestamp is
exactly `0`, the falsy local epoch midnight; then `Array.from(new
Set(...))` dedups (the source also sorts ascending, but only membership is
ever queried). -/
def streakDayList (hist : List HistoryItem) : List ℤ :=
  (((hist.filterMap fun it => it.created_at).map dayStart).filter fun d =>
    decide (d ≠ 0)).dedup

/-- The backward walk of the streak loop: while the day under the cursor is
in the day set, count it and step one day back.  The source loop is unbounded; a
fuel of `days.length` is exact because each matched cursor is a distinct
member of `days` (proved in `streakGo_spec`). -/
def streakGo (days : List ℤ) (cursor : ℤ) : ℕ → ℕ
  | 0 => 0
  | fuel + 1 =>
      if cursor ∈ days then streakGo days (cursor - msPerDay) fuel + 1 else 0

/-- The `streak` computation of the `totals` memo. -/
def streak (hist : List HistoryItem) (now : ℤ) : ℕ :=
  if hist.length = 0 then 0
  else
    let days := streakDayList hist
    if days = [] then 0
    else streakGo days (dayStart now) days.length

/-- The five category keys in the order the insights code lists them. -/
def catKeys : List Cat := [Cat.opening, Cat.content, Cat.delivery, Cat.grammar, Cat.overall]

/-- The improvement delta of one category: split at `floor(n/2)`, mean of
the non-null resolved scores of each half, `second - first`; the source
expression `(avg(second) - avg(first)) || 0` turns the `NaN` arising from
an empty half into `0` (and maps `0` to itself). -/
def catDelta (hist : List HistoryItem) (k : Cat) : ℚ :=
  let half := hist.length / 2
  let first := (hist.take half).filterMap fun h => scoreOf h.feedback k
  let second := (hist.drop half).filterMap fun h => scoreOf h.feedback k
  if first = [] ∨ second = [] then 0
  else second.sum / second.length - first.sum / first.length

/-- The `deltas` list of the insights memo. -/
def deltas (hist : List HistoryItem) : List (Cat × ℚ) :=
  catKeys.map fun k => (k, catDelta hist k)

/-- Embedding of `mostImproved`: the source stably sorts `deltas` descending by delta and
takes the head, i.e. the first entry attaining the maximum delta; the fold
replaces the current best only on a strictly larger delta, which yields
exactly that first maximum. -/
def mostImproved (hist : List HistoryItem) : Option (Cat × ℚ) :=
  if hist.length = 0 then none
  else
    match deltas hist with
    | [] => none
    | d :: ds => some (ds.foldl (fun b x => if b.2 < x.2 then x else b) d)

/-- One chart point: `{x: timestampMs, y: score, t: iso string, id}`. -/
structure Pt where
  x : ℤ
  y : ℚ
  t : String
  id : ℤ
deriving DecidableEq

/-- Embedding of `movingAvg`: replace the `y` of each point by the mean
over the trailing window `slice(max(0, i-(window-1)), i+1)`; all other
fields are spread through unchanged. -/
def movingAvg (pts : List Pt) (window : ℕ) : List Pt :=
  if window ≤ 1 then pts
  else
    pts.mapIdx fun i p =>
      let win := (pts.take (i + 1)).drop (i - (window - 1))
      { p with y := (win.map Pt.y).sum / win.length }

/-- A JavaScript runtime value as it can reach `parseMaybeJSON`. -/
inductive JSVal where
  | str (s : String)
  | num (q : ℚ)
  | boolean (b : Bool)
  | null
  | arr (xs : List JSVal)
  | obj (fields : List (String × JSVal))

/-- JavaScript `String.prototype.trim`: strip leading and trailing
whitespace (modelled on the character list of the string). -/
def jsTrim (s : String) : String :=
  String.mk (((s.data.dropWhile Char.isWhitespace).reverse.dropWhile Char.isWhitespace).reverse)

/-- JavaScript `s.startsWith(c)` for a one-character needle `c`. -/
def headIs (c : Char) (s : String) : Bool :=
  match s.data with
  | [] => false
  | a :: _ => a == c

/-- JavaScript `s.endsWith(c)` for a one-character needle `c`. -/
def lastIs (c : Char) (s : String) : Bool :=
  match s.data.reverse with
  | [] => false
  | a :: _ => a == c

/-- The JSON-shape guard of `parseMaybeJSON`:
`(s.startsWith("\x7b") && s.endsWith("\x7d")) || (s.startsWith("[") && s.endsWith("]"))`. -/
def jsonLooking (s : String) : Bool :=
  (headIs (Char.ofNat 123) s && lastIs (Char.ofNat 125) s) ||
    (headIs (Char.ofNat 91) s && lastIs (Char.ofNat 93) s)

/-- Embedding of `parseMaybeJSON`, parameterized by the behaviour of the external
`JSON.parse` builtin (`parse s = some j` models a successful parse of `s`,
`none` an exception).  The `try/catch` returning the original value on
failure is the `Option.getD`; the function is total, so it never throws. -/
def parseMaybeJSON (parse : String → Option JSVal) (v : JSVal) : JSVal :=
  match v with
  | JSVal.str s =>
      let t := jsTrim s
      if jsonLooking t then (parse t).getD v else v
  | _ => v

/-- One character of a cell needs quoting when it matches `/[",\n]/`. -/
def specialChar (c : Char) : Bool :=
  c == Char.ofNat 34 || c == ',' || c == '\n'

/-- Doubling of internal double quotes (the global double-quote replace of
the exporter) on the character list. -/
def doubleQuotes : List Char → List Char
  | [] => []
  | c :: cs =>
      if c == Char.ofNat 34 then c :: c :: doubleQuotes cs
      else c :: doubleQuotes cs

/-- RFC-4180-style cell quoting of the exporter: when the cell matches the
quoting regex it is wrapped in double quotes with internal double quotes
doubled, otherwise it passes through unchanged. -/
def csvEscape (cell : String) : String :=
  if cell.data.any specialChar then
    String.mk (Char.ofNat 34 :: doubleQuotes cell.data ++ [Char.ofNat 34])
  else cell

/-- JavaScript `Array.prototype.join(sep)` over already-stringified cells. -/
def joinWith (sep : Char) : List String → List Char
  | [] => []
  | [r] => r.data
  | r :: rs => r.data ++ sep :: joinWith sep rs

/-- The row built for one record by `exportCsv`: id, ISO date (empty when
`created_at` is missing), then the five resolved scores with `?? ""`.
`iso` models `Date.prototype.toISOString` and `numStr` the JavaScript
number-to-string conversion, both external builtins. -/
def csvRow (iso : ℤ → String) (numStr : ℚ → String) (it : HistoryItem) : List String :=
  [toString it.id,
   (match it.created_at with
    | some t => iso t
    | none => ""),
   (match scoreOf it.feedback Cat.opening with
    | some q => numStr q
    | none => ""),
   (match scoreOf it.feedback Cat.content with
    | some q => numStr q
    | none => ""),
   (match scoreOf it.feedback Cat.delivery with
    | some q => numStr q
    | none => ""),
   (match scoreOf it.feedback Cat.grammar with
    | some q => numStr q
    | none => ""),
   (match scoreOf it.feedback Cat.overall with
    | some q => numStr q
    | none => "")]

/-- The header row of `exportCsv`. -/
def csvHeader : List String :=
  ["id", "date", "opening", "content", "delivery", "grammar", "overall"]

/-- Embedding of `exportCsv`: header plus one row per record, each cell quoted when
needed, cells joined by `","` and rows by `"\n"`. -/
def exportCsv (iso : ℤ → String) (numStr : ℚ → String) (hist : List HistoryItem) : String :=
  let rows := csvHeader :: hist.map (csvRow iso numStr)
  String.mk (joinWith '\n' (rows.map fun r => String.mk (joinWith ',' (r.map csvEscape))))

/-- The record with its transcript removed; `exportCsv` never reads the
transcript, which `exportCsv_transcript_free` makes precise. -/
def eraseTranscript (it : HistoryItem) : HistoryItem :=
  { it with transcript := none }

/-- Substring occurrence test: does `pat` occur contiguously in `hay`?
`takesAt pat hay` checks an occurrence at the head. -/
def takesAt : List Char → List Char → Bool
  | [], _ => true
  | _ :: _, [] => false
  | a :: as, b :: bs => a == b && takesAt as bs

/-- Occurrence of `pat` as a contiguous substring of the list. -/
def hasSub (pat : List Char) : List Char → Bool
  | [] => takesAt pat []
  | b :: bs => takesAt pat (b :: bs) || hasSub pat bs

/-- Substring occurrence on strings, as in JavaScript `String.includes`:
`strHasSub hay pat` holds when `pat` occurs in `hay`. -/
def strHasSub (hay pat : String) : Bool := hasSub pat.data hay.data

/-- The fixed logical canvas width `w = 900` of `LineChart`. -/
def chartW : ℚ := 900

/-- The default padding inset `padding = 36` of `LineChart`. -/
def chartPad : ℚ := 36

/-- The horizontal scale `xScale` of `LineChart`:
`padding + ((x - minX) / Math.max(1, maxX - minX)) * (w - padding*2)`.
Timestamps are integers, so a degenerate span is exactly `maxX = minX`. -/
def xScale (minX maxX x : ℤ) : ℚ :=
  chartPad + (((x : ℚ) - (minX : ℚ)) / max 1 ((maxX : ℚ) - (minX : ℚ))) * (chartW - chartPad * 2)

/-- Spread minimum `Math.min(...xs)` over a nonempty list (the chart bails out earlier on
an empty point set; the `[]` case is never reached). -/
def listMin : List ℤ → ℤ
  | [] => 0
  | x :: t => t.foldl min x

/-- Spread maximum `Math.max(...xs)` over a nonempty list. -/
def listMax : List ℤ → ℤ
  | [] => 0
  | x :: t => t.foldl max x

/-- One rendered series of the chart. -/
structure Series where
  key : String
  label : String
  color : String
  points : List Pt
deriving DecidableEq

/-- The candidate (series, point) pairs of the hover loop, in iteration
order: `for (const s of series) for (const p of s.points)`. -/
def hoverCands (series : List Series) : List (Series × Pt) :=
  series.flatMap fun s => s.points.map fun p => (s, p)

/-- The squared screen-space distance from the pointer to a projected
point.  The source compares `Math.hypot(dx, dy)` values; comparing the
squares is equivalent because squaring is strictly monotone on
nonnegative reals, so minimizer and ties are identical. -/
def dist2 (xs : ℤ → ℚ) (ys : ℚ → ℚ) (mx my : ℚ) (p : Pt) : ℚ :=
  (xs p.x - mx) ^ 2 + (ys p.y - my) ^ 2

/-- The accumulation step of the hover loop:
`if (!best || dist < best.dist) best = candidate`. -/
def pickStep (f : α → ℚ) (b : Option α) (x : α) : Option α :=
  match b with
  | none => some x
  | some b0 => if f x < f b0 then some x else b0

/-- First strict minimizer of `f` along `l` (the fold of the hover loop). -/
def pickFirstMin (f : α → ℚ) (l : List α) : Option α :=
  l.foldl (pickStep f) none

/-- Embedding of `handleMouse` of `LineChart`: scan every point of every passed-in
series, projected through the scales, and keep the strictly closest
candidate; the source then copies label/x/y/t/color/id out of the winner,
which carries the same information as the (series, point) pair. -/
def handleMouse (series : List Series) (xs : ℤ → ℚ) (ys : ℚ → ℚ) (mx my : ℚ) :
    Option (Series × Pt) :=
  pickFirstMin (fun sp => dist2 xs ys mx my sp.2) (hoverCands series)

/-- The string key of a category, as used by the visibility map. -/
def catName : Cat → String
  | Cat.opening => "opening"
  | Cat.content => "content"
  | Cat.delivery => "delivery"
  | Cat.grammar => "grammar"
  | Cat.overall => "overall"

/-- Insertion of a point into a list sorted ascending by `x`
(models `pts.sort((a, b) => a.x - b.x)`; the relative order of equal
timestamps is irrelevant to every property proved here). -/
def insertByX (p : Pt) : List Pt → List Pt
  | [] => [p]
  | q :: t => if p.x < q.x then p :: q :: t else q :: insertByX p t

/-- Sort a point list ascending by `x`. -/
def sortByX : List Pt → List Pt
  | [] => []
  | p :: t => insertByX p (sortByX t)

/-- The series constructor `mk` of the `basePoints` memo: project each record of the filtered
base to a point (dropping records without a timestamp or without a
resolved score), sort by timestamp, and optionally smooth. -/
def mkSeries (iso : ℤ → String) (base : List HistoryItem) (smooth : Bool)
    (label : String) (k : Cat) (color : String) : Series :=
  let pts := base.filterMap fun it =>
    match it.created_at, scoreOf it.feedback k with
    | some d, some y => some { x := d, y := y, t := iso d, id := it.id }
    | _, _ => none
  let sortedPts := sortByX pts
  { key := catName k, label := label, color := color,
    points := if smooth then movingAvg sortedPts 3 else sortedPts }

/-- The visibility predicate `visible[s.key] !== false`: only an explicit
`false` hides a series; an absent (undefined) binding keeps it. -/
def visPred (visible : String → Option Bool) (n : String) : Bool :=
  match visible n with
  | some false => false
  | _ => true

/-- Embedding of `basePoints`: build the five series over the range-filtered history and
drop exactly those whose key the visibility map binds to `false`. -/
def basePoints (iso : ℤ → String) (hist : List HistoryItem) (now : ℤ) (r : Range)
    (smooth : Bool) (visible : String → Option Bool) : List Series :=
  let base := filteredHist hist now r
  let all := [
    mkSeries iso base smooth "Overall" Cat.overall "#22d3ee",
    mkSeries iso base smooth "Opening" Cat.opening "#60a5fa",
    mkSeries iso base smooth "Content" Cat.content "#34d399",
    mkSeries iso base smooth "Delivery" Cat.delivery "#f472b6",
    mkSeries iso base smooth "Grammar" Cat.grammar "#f59e0b"]
  all.filter fun s => visPred visible s.key

/-! Concrete fixtures used by witnesses and counterexamples. -/

/-- A feedback value with all five sections absent and the given scores
block. -/
def scoresOnly (f : Cat → Option ℚ) : Feedback :=
  { opening := Section.missing, content := Section.missing, delivery := Section.missing,
    grammar := Section.missing, overall := Section.missing, scores := f }

/-- Inline delivery score 80 and block score 70 for every category. -/
def fbBoth : Feedback :=
  { opening := Section.missing, content := Section.missing,
    delivery := Section.obj (some 80), grammar := Section.missing,
    overall := Section.missing, scores := fun _ => some 70 }

/-- A null inline delivery score beside a block score of 70. -/
def fbBlockOnly : Feedback :=
  { opening := Section.missing, content := Section.missing,
    delivery := Section.obj none, grammar := Section.missing,
    overall := Section.missing, scores := fun _ => some 70 }

/-- Only an overall block score of 80. -/
def fbOverall80 : Feedback :=
  scoresOnly fun k =>
    match k with
    | Cat.overall => some 80
    | _ => none

/-- A single record 30 days older than `nowW`. -/
def recOld : HistoryItem :=
  { id := 1, transcript := none, created_at := some (70 * msPerDay), feedback := some fbOverall80 }

/-- A fixed "now" for the range-fallback witness. -/
def nowW : ℤ := 100 * msPerDay + 7200000

/-- A record carrying only a timestamp. -/
def mkRec3 (i t : ℤ) : HistoryItem :=
  { id := i, transcript := none, created_at := some t, feedback := none }

/-- A fixed "now" on calendar day 10 for the streak witness. -/
def exNow3 : ℤ := 10 * msPerDay + 3600000

/-- Records on days 7, 9 and 10 (three days ago, yesterday, today). -/
def exHist3 : List HistoryItem :=
  [mkRec3 1 (7 * msPerDay + 2), mkRec3 2 (9 * msPerDay + 1000), mkRec3 3 (10 * msPerDay + 50)]

/-- A single record at 1 am of local calendar day 0 (its day bucket is the
falsy timestamp 0). -/
def exHist0 : List HistoryItem := [mkRec3 1 3600000]

/-- A "now" at 2 am of the same local calendar day 0. -/
def exNow0 : ℤ := 7200000

/-- Delivery score `v`, every other category flat at 70. -/
def fbFlat (v : ℚ) : Feedback :=
  scoresOnly fun k =>
    match k with
    | Cat.delivery => some v
    | _ => some 70

/-- Record `i` (one per day, ascending) with delivery score `v`. -/
def mkRec4 (i : ℤ) (v : ℚ) : HistoryItem :=
  { id := i, transcript := none, created_at := some (i * msPerDay), feedback := some (fbFlat v) }

/-- Delivery scores [50, 50, 90, 90], everything else flat at 70. -/
def exHist4 : List HistoryItem :=
  [mkRec4 1 50, mkRec4 2 50, mkRec4 3 90, mkRec4 4 90]

/-- Four points with scores [60, 70, 80, 90]. -/
def exPts : List Pt :=
  [{ x := 1, y := 60, t := "a", id := 11 }, { x := 2, y := 70, t := "b", id := 12 },
   { x := 3, y := 80, t := "c", id := 13 }, { x := 4, y := 90, t := "d", id := 14 }]

/-- The smoothed scores [60, 65, 70, 80] with all other fields unchanged. -/
def exPtsOut : List Pt :=
  [{ x := 1, y := 60, t := "a", id := 11 }, { x := 2, y := 65, t := "b", id := 12 },
   { x := 3, y := 70, t := "c", id := 13 }, { x := 4, y := 80, t := "d", id := 14 }]

/-- A concrete `JSON.parse` behaviour: succeeds on exactly one object
literal. -/
def parseW : String → Option JSVal :=
  fun s => if s = "\x7b\"score\":80\x7d" then some (JSVal.num 80) else none

/-- All five block scores at 80. -/
def fb80 : Feedback := scoresOnly fun _ => some 80

/-- A record whose transcript contains a comma. -/
def recH1 : HistoryItem :=
  { id := 1, transcript := some "Hello, world", created_at := some 0, feedback := some fb80 }

/-- A second, unremarkable record. -/
def recH2 : HistoryItem :=
  { id := 2, transcript := some "fine", created_at := some msPerDay, feedback := some fb80 }

/-- The two-record history of the CSV example. -/
def exHist7 : List HistoryItem := [recH1, recH2]

/-- A concrete stand-in for `Date.prototype.toISOString`. -/
def isoW : ℤ → String := fun _ => "2024-01-01T00:00:00.000Z"

/-- A concrete stand-in for JavaScript number-to-string conversion. -/
def numW : ℚ → String := fun _ => "80"

/-- Two visible series sharing the canvas, for the hover witness. -/
def exSeries : List Series :=
  [{ key := "overall", label := "Overall", color := "#22d3ee",
     points := [{ x := 0, y := 50, t := "t0", id := 1 }, { x := 1, y := 60, t := "t1", id := 2 }] },
   { key := "content", label := "Content", color := "#34d399",
     points := [{ x := 0, y := 70, t := "t0", id := 1 }] }]

/-- A concrete x scale for the hover witness. -/
def xsW : ℤ → ℚ := fun x => (x : ℚ) * 10

/-- A concrete y scale for the hover witness. -/
def ysW : ℚ → ℚ := fun y => 200 - y

/-! Theorems. -/

/-- C1: `scoreOf` returns the inline section score when the section is a
structured object carrying a numeric score; when the inline score is absent
or null it returns the scores-block value; when neither is present (or the
feedback itself is absent) it returns null; and the result depends only on
the section and block entry of the queried category, hence is independent of the
other four categories. -/
theorem scoreOf_resolution :
    ∀ k : Cat,
      scoreOf none k = none ∧
      ∀ fb : Feedback,
        (∀ q : ℚ, fb.sec k = Section.obj (some q) → scoreOf (some fb) k = some q) ∧
        (inlineOf fb k = none → scoreOf (some fb) k = fb.scores k) ∧
        (inlineOf fb k = none → fb.scores k = none → scoreOf (some fb) k = none) ∧
        ∀ fb' : Feedback, fb.sec k = fb'.sec k → fb.scores k = fb'.scores k →
          scoreOf (some fb) k = scoreOf (some fb') k := by
  intro k
  refine ⟨rfl, fun fb => ⟨?_, ?_, ?_, ?_⟩⟩
  · intro q h
    simp [scoreOf, inlineOf, h, Option.orElse]
  · intro h
    simp [scoreOf, h, Option.orElse]
  · intro h h2
    simp [scoreOf, h, h2, Option.orElse]
  · intro fb' hsec hsc
    simp only [scoreOf, inlineOf]
    rw [hsec, hsc]

/-- Witness for C1: with an inline delivery score of 80 beside a block
score of 70 the inline value wins; with a null inline score the block
value 70 is used. -/
theorem scoreOf_resolution_w :
    scoreOf (some fbBoth) Cat.delivery = some 80 ∧
      scoreOf (some fbBlockOnly) Cat.delivery = some 70 := by
  constructor
  · exact ((scoreOf_resolution Cat.delivery).2 fbBoth).1 80 rfl
  · exact (((scoreOf_resolution Cat.delivery).2 fbBlockOnly).2.1 rfl).trans rfl

/-- C2: a category average is the arithmetic mean of the non-null resolved
scores over the effective set, rounded to one decimal place, and null when
that set has no resolved scores; the effective set is the range-filtered
history, falling back to the full history when the filter leaves zero
records. -/
theorem categoryAvg_spec :
    ∀ (hist : List HistoryItem) (now : ℤ) (r : Range) (k : Cat),
      let eff := if (filteredHist hist now r).length = 0 then hist else filteredHist hist now r
      let nums := eff.filterMap fun it => scoreOf it.feedback k
      (nums = [] → categoryAvg hist now r k = none) ∧
      (nums ≠ [] →
        categoryAvg hist now r k = some (round1 (nums.sum / (nums.length : ℚ)))) := by
  intro hist now r k
  dsimp only
  constructor
  · intro h
    unfold categoryAvg getAvg totalsBase
    dsimp only
    by_cases hb : (if (filteredHist hist now r).length = 0 then hist
        else filteredHist hist now r).length = 0
    · simp [hb]
    · rw [if_neg hb, if_pos]
      rw [h]
      rfl
  · intro h
    unfold categoryAvg getAvg totalsBase
    dsimp only
    have hb : ¬ (if (filteredHist hist now r).length = 0 then hist
        else filteredHist hist now r).length = 0 := by
      intro hb
      exact h (by
        have := List.length_eq_zero.mp hb
        rw [this]
        rfl)
    rw [if_neg hb, if_neg]
    intro hn
    exact h (List.length_eq_zero.mp hn)

/-- Witness for C2: a 7-day window over a history whose only record is 30
days old filters everything out, and the average falls back to the full
history, giving the overall score 80 of the lone record. -/
theorem categoryAvg_spec_w :
    (filteredHist [recOld] nowW Range.d7).length = 0 ∧
      categoryAvg [recOld] nowW Range.d7 Cat.overall = some 80 := by
  have hlen : (filteredHist [recOld] nowW Range.d7).length = 0 := by decide
  refine ⟨hlen, ?_⟩
  have h := (categoryAvg_spec [recOld] nowW Range.d7 Cat.overall).2 (by decide)
  rw [h, if_pos hlen]
  simp only [List.filterMap, recOld, fbOverall80, scoresOnly, scoreOf, inlineOf,
    Feedback.sec, Option.orElse, List.sum_cons, List.sum_nil, List.length_cons,
    List.length_nil]
  norm_num [round1, jsRound]

/-- Monotonicity of the length of a `≤`-filter in the bound. -/
theorem filter_le_len_le (l : List ℤ) (a b : ℤ) (hba : b ≤ a) :
    (l.filter fun d => decide (d ≤ b)).length ≤ (l.filter fun d => decide (d ≤ a)).length := by
  induction l with
  | nil => simp
  | cons x t ih =>
      by_cases hxb : x ≤ b
      · have hxa : x ≤ a := le_trans hxb hba
        simp only [List.filter_cons, decide_eq_true hxb, decide_eq_true hxa,
          List.length_cons]
        exact Nat.succ_le_succ ih
      · by_cases hxa : x ≤ a
        · simp only [List.filter_cons, decide_eq_false hxb, decide_eq_true hxa,
            List.length_cons]
          exact le_trans ih (Nat.le_succ _)
        · simp only [List.filter_cons, decide_eq_false hxb, decide_eq_false hxa]
          exact ih

/-- Strict decrease of the `≤`-filter length when the bound drops below a
member of the list. -/
theorem filter_le_len_lt (l : List ℤ) (a b : ℤ) (hba : b < a) (ha : a ∈ l) :
    (l.filter fun d => decide (d ≤ b)).length < (l.filter fun d => decide (d ≤ a)).length := by
  induction l with
  | nil => simp at ha
  | cons x t ih =>
      rcases List.mem_cons.mp ha with rfl | hat
      · have hxb : ¬ a ≤ b := not_le.mpr hba
        simp only [List.filter_cons, decide_eq_false hxb, decide_eq_true (le_refl a),
          List.length_cons]
        exact Nat.lt_succ_of_le (filter_le_len_le t a b hba.le)
      · by_cases hxb : x ≤ b
        · have hxa : x ≤ a := le_trans hxb hba.le
          simp only [List.filter_cons, decide_eq_true hxb, decide_eq_true hxa,
            List.length_cons]
          exact Nat.succ_lt_succ (ih hat)
        · by_cases hxa : x ≤ a
          · simp only [List.filter_cons, decide_eq_false hxb, decide_eq_true hxa,
              List.length_cons]
            exact Nat.lt_succ_of_lt (ih hat)
          · simp only [List.filter_cons, decide_eq_false hxb, decide_eq_false hxa]
            exact ih hat

/-- The streak loop with enough fuel counts exactly the consecutive days,
walking backward from the cursor, that are present in the day set, and
stops at the first absent day. -/
theorem streakGo_spec :
    ∀ (fuel : ℕ) (days : List ℤ) (cursor : ℤ),
      (days.filter fun d => decide (d ≤ cursor)).length ≤ fuel →
      (∀ j : ℕ, j < streakGo days cursor fuel → cursor - (j : ℤ) * msPerDay ∈ days) ∧
      cursor - (streakGo days cursor fuel : ℤ) * msPerDay ∉ days := by
  intro fuel
  induction fuel with
  | zero =>
      intro days cursor hfuel
      refine ⟨fun j hj => absurd hj (Nat.not_lt_zero j), ?_⟩
      intro hmem
      have hmem' : cursor ∈ days := by simpa [streakGo] using hmem
      have hfmem : cursor ∈ days.filter fun d => decide (d ≤ cursor) :=
        List.mem_filter.mpr ⟨hmem', decide_eq_true (le_refl cursor)⟩
      have hpos : 0 < (days.filter fun d => decide (d ≤ cursor)).length :=
        List.length_pos.mpr (List.ne_nil_of_mem hfmem)
      omega
  | succ fuel ih =>
      intro days cursor hfuel
      by_cases hc : cursor ∈ days
      · have hstep : cursor - msPerDay < cursor := by
          have : (0 : ℤ) < msPerDay := by decide
          omega
        have hfuel' : (days.filter fun d => decide (d ≤ cursor - msPerDay)).length ≤ fuel := by
          have hlt := filter_le_len_lt days cursor (cursor - msPerDay) hstep hc
          omega
        obtain ⟨h1, h2⟩ := ih days (cursor - msPerDay) hfuel'
        simp only [streakGo, if_pos hc]
        constructor
        · intro j hj
          cases j with
          | zero => simpa using hc
          | succ jj =>
              have heq : cursor - ((jj + 1 : ℕ) : ℤ) * msPerDay =
                  cursor - msPerDay - (jj : ℤ) * msPerDay := by
                push_cast
                ring
              rw [heq]
              exact h1 jj (Nat.lt_of_succ_lt_succ hj)
        · have heq : cursor - ((streakGo days (cursor - msPerDay) fuel + 1 : ℕ) : ℤ) * msPerDay =
              cursor - msPerDay - (streakGo days (cursor - msPerDay) fuel : ℤ) * msPerDay := by
            push_cast
            ring
          rw [heq]
          exact h2
      · simp only [streakGo, if_neg hc]
        exact ⟨fun j hj => absurd hj (Nat.not_lt_zero j), by simpa using hc⟩

/-- C3 (amended): the streak equals the number of consecutive local
calendar days, counted backward starting inclusively at today, whose day
bucket occurs among the bucketed dates of the entire history (records
without `created_at` ignored, duplicate same-day records counted once),
except that the bucket whose local-midnight timestamp is exactly `0` never
counts — the `filter(Boolean)` of the source drops that falsy value:
every day bucket within the streak is a nonzero bucket of some record and
the next one is absent from the counted set. -/
theorem streak_spec :
    ∀ (hist : List HistoryItem) (now : ℤ),
      (∀ d : ℤ, d ∈ streakDayList hist ↔
        d ≠ 0 ∧ ∃ it ∈ hist, ∃ t : ℤ, it.created_at = some t ∧ dayStart t = d) ∧
      (∀ j : ℕ, j < streak hist now →
        dayStart now - (j : ℤ) * msPerDay ∈ streakDayList hist) ∧
      dayStart now - (streak hist now : ℤ) * msPerDay ∉ streakDayList hist := by
  intro hist now
  refine ⟨?_, ?_⟩
  · intro d
    simp only [streakDayList, List.mem_dedup, List.mem_filter, List.mem_map,
      List.mem_filterMap, decide_eq_true_eq]
    constructor
    · rintro ⟨⟨t, ⟨it, hit, hcr⟩, hday⟩, hnz⟩
      exact ⟨hnz, it, hit, t, hcr, hday⟩
    · rintro ⟨hnz, it, hit, t, hcr, hday⟩
      exact ⟨⟨t, ⟨it, hit, hcr⟩, hday⟩, hnz⟩
  · unfold streak
    by_cases h0 : hist.length = 0
    · rw [if_pos h0]
      have : hist = [] := List.length_eq_zero.mp h0
      subst this
      refine ⟨fun j hj => absurd hj (Nat.not_lt_zero j), ?_⟩
      simp [streakDayList]
    · rw [if_neg h0]
      dsimp only
      by_cases hd : streakDayList hist = []
      · rw [if_pos hd, hd]
        exact ⟨fun j hj => absurd hj (Nat.not_lt_zero j), by simp⟩
      · rw [if_neg hd]
        exact streakGo_spec (streakDayList hist).length (streakDayList hist)
          (dayStart now) (List.length_filter_le _ _)

/-- Witness for C3: a history with records today, yesterday and three days
ago (but not two days ago) yields streak 2, and the day two days back is
indeed absent from the day set. -/
theorem streak_spec_w :
    streak exHist3 exNow3 = 2 ∧
      dayStart exNow3 - (streak exHist3 exNow3 : ℤ) * msPerDay ∉ streakDayList exHist3 :=
  ⟨by decide, (streak_spec exHist3 exNow3).2.2⟩

/-- Counterexample to C3 as stated: a record dated today is not counted
when the day bucket of today is the falsy local-epoch timestamp `0` — the
history holding one record at 1 am of local day 0, with now at 2 am of that
same day, yields streak 0 although today holds the bucketed date of a
record, because `filter(Boolean)` empties the day set. -/
theorem streak_day0_cex :
    streak exHist0 exNow0 = 0 ∧ streakDayList exHist0 = [] ∧
      (∃ it ∈ exHist0, ∃ t : ℤ, it.created_at = some t ∧ dayStart t = dayStart exNow0) := by
  refine ⟨by decide, by decide, mkRec3 1 3600000, List.mem_cons_self _ _, 3600000, rfl, by decide⟩

/-- The `best`-replacement fold (replace only on a strictly larger value)
returns an element of init-plus-list that attains the maximum. -/
theorem foldBest_spec {α : Type} (f : α → ℚ) :
    ∀ (l : List α) (b : α),
      l.foldl (fun b x => if f b < f x then x else b) b ∈ b :: l ∧
      ∀ x ∈ b :: l, f x ≤ f (l.foldl (fun b x => if f b < f x then x else b) b) := by
  intro l
  induction l with
  | nil =>
      intro b
      refine ⟨List.mem_cons_self b [], ?_⟩
      intro x hx
      rw [List.mem_singleton.mp hx]
      exact le_refl _
  | cons x t ih =>
      intro b
      simp only [List.foldl_cons]
      by_cases h : f b < f x
      · rw [if_pos h]
        obtain ⟨h1, h2⟩ := ih x
        constructor
        · rcases List.mem_cons.mp h1 with h1 | h1
          · rw [h1]
            exact List.mem_cons_of_mem b (List.mem_cons_self x t)
          · exact List.mem_cons_of_mem b (List.mem_cons_of_mem x h1)
        · intro z hz
          rcases List.mem_cons.mp hz with hz | hz
          · rw [hz]
            exact le_trans h.le (h2 x (List.mem_cons_self x t))
          · exact h2 z hz
      · rw [if_neg h]
        obtain ⟨h1, h2⟩ := ih b
        constructor
        · rcases List.mem_cons.mp h1 with h1 | h1
          · rw [h1]
            exact List.mem_cons_self b (x :: t)
          · exact List.mem_cons_of_mem b (List.mem_cons_of_mem x h1)
        · intro z hz
          rcases List.mem_cons.mp hz with hz | hz
          · rw [hz]
            exact h2 b (List.mem_cons_self b t)
          · rcases List.mem_cons.mp hz with hz | hz
            · rw [hz]
              exact le_trans (not_lt.mp h) (h2 b (List.mem_cons_self b t))
            · exact h2 z (List.mem_cons_of_mem b hz)

/-- C4: on a non-empty history, `mostImproved` returns a category together
with its delta (mean of the later half minus mean of the earlier half of
the non-null resolved scores, 0 when either half is empty), and that delta
is the largest among the five categories. -/
theorem mostImproved_spec :
    ∀ hist : List HistoryItem, hist ≠ [] →
      ∃ k : Cat, ∃ d : ℚ,
        mostImproved hist = some (k, d) ∧ d = catDelta hist k ∧
        ∀ k2 ∈ catKeys, catDelta hist k2 ≤ d := by
  intro hist hne
  have h0 : ¬ hist.length = 0 := fun h => hne (List.length_eq_zero.mp h)
  have hdel : mostImproved hist =
      some (([(Cat.content, catDelta hist Cat.content),
        (Cat.delivery, catDelta hist Cat.delivery),
        (Cat.grammar, catDelta hist Cat.grammar),
        (Cat.overall, catDelta hist Cat.overall)]).foldl
          (fun b x => if b.2 < x.2 then x else b)
          (Cat.opening, catDelta hist Cat.opening)) := by
    unfold mostImproved
    rw [if_neg h0]
    rfl
  obtain ⟨hmem, hmax⟩ := foldBest_spec (Prod.snd (α := Cat) (β := ℚ))
    [(Cat.content, catDelta hist Cat.content), (Cat.delivery, catDelta hist Cat.delivery),
     (Cat.grammar, catDelta hist Cat.grammar), (Cat.overall, catDelta hist Cat.overall)]
    (Cat.opening, catDelta hist Cat.opening)
  simp only [List.mem_cons, List.not_mem_nil, or_false] at hmem
  obtain ⟨k, hk⟩ : ∃ k : Cat,
      ([(Cat.content, catDelta hist Cat.content), (Cat.delivery, catDelta hist Cat.delivery),
        (Cat.grammar, catDelta hist Cat.grammar), (Cat.overall, catDelta hist Cat.overall)]).foldl
          (fun b x => if b.2 < x.2 then x else b)
          (Cat.opening, catDelta hist Cat.opening) = (k, catDelta hist k) := by
    rcases hmem with h | h | h | h | h
    · exact ⟨Cat.opening, h⟩
    · exact ⟨Cat.content, h⟩
    · exact ⟨Cat.delivery, h⟩
    · exact ⟨Cat.grammar, h⟩
    · exact ⟨Cat.overall, h⟩
  have hmax' : ∀ x ∈ (Cat.opening, catDelta hist Cat.opening) ::
      [(Cat.content, catDelta hist Cat.content), (Cat.delivery, catDelta hist Cat.delivery),
       (Cat.grammar, catDelta hist Cat.grammar), (Cat.overall, catDelta hist Cat.overall)],
      x.2 ≤ catDelta hist k := by
    intro x hx
    have h := hmax x hx
    rw [hk] at h
    exact h
  refine ⟨k, catDelta hist k, by rw [hdel, hk], rfl, ?_⟩
  intro k2 hk2
  simp only [catKeys, List.mem_cons, List.not_mem_nil, or_false] at hk2
  rcases hk2 with rfl | rfl | rfl | rfl | rfl
  · exact hmax' (Cat.opening, catDelta hist Cat.opening) (by simp)
  · exact hmax' (Cat.content, catDelta hist Cat.content) (by simp)
  · exact hmax' (Cat.delivery, catDelta hist Cat.delivery) (by simp)
  · exact hmax' (Cat.grammar, catDelta hist Cat.grammar) (by simp)
  · exact hmax' (Cat.overall, catDelta hist Cat.overall) (by simp)

/-- Witness for C4: delivery scores [50, 50, 90, 90] with every other
category flat at 70 yield delivery as most improved with delta +40, and the
general theorem applies to this history. -/
theorem mostImproved_spec_w :
    mostImproved exHist4 = some (Cat.delivery, 40) ∧
      ∃ k : Cat, ∃ d : ℚ, mostImproved exHist4 = some (k, d) ∧ d = catDelta exHist4 k ∧
        ∀ k2 ∈ catKeys, catDelta exHist4 k2 ≤ d := by
  have hflat : ∀ k : Cat, k ≠ Cat.delivery → catDelta exHist4 k = 0 := by
    intro k hk
    have hs : ∀ v : ℚ, scoreOf (some (fbFlat v)) k = some 70 := by
      intro v
      cases k <;>
        simp [scoreOf, inlineOf, fbFlat, scoresOnly, Feedback.sec, Option.orElse]
      exact absurd rfl hk
    norm_num [catDelta, exHist4, mkRec4, List.filterMap, hs]
  have hdeliv : catDelta exHist4 Cat.delivery = 40 := by
    have hs : ∀ v : ℚ, scoreOf (some (fbFlat v)) Cat.delivery = some v := by
      intro v
      simp [scoreOf, inlineOf, fbFlat, scoresOnly, Feedback.sec, Option.orElse]
    norm_num [catDelta, exHist4, mkRec4, List.filterMap, hs]
    exact ⟨by simp, by simp⟩
  constructor
  · unfold mostImproved
    rw [if_neg (by norm_num [exHist4])]
    have : deltas exHist4 =
        [(Cat.opening, catDelta exHist4 Cat.opening),
         (Cat.content, catDelta exHist4 Cat.content),
         (Cat.delivery, catDelta exHist4 Cat.delivery),
         (Cat.grammar, catDelta exHist4 Cat.grammar),
         (Cat.overall, catDelta exHist4 Cat.overall)] := rfl
    rw [this, hdeliv, hflat Cat.opening (by simp), hflat Cat.content (by simp),
      hflat Cat.grammar (by simp), hflat Cat.overall (by simp)]
    norm_num
  · exact mostImproved_spec exHist4 (by simp [exHist4])

/-- C5: moving-average smoothing with window 3 keeps the length and, at
every index, replaces the score of the point by the mean over the trailing
window of up to 3 points ending there (narrowing near the start), leaving
x, timestamp and id unchanged; in particular [60, 70, 80, 90] smooths to
[60, 65, 70, 80]. -/
theorem movingAvg_spec :
    ∀ pts : List Pt,
      (movingAvg pts 3).length = pts.length ∧
      (∀ (i : ℕ) (p : Pt), pts[i]? = some p →
        (movingAvg pts 3)[i]? =
          some { p with y := (((pts.take (i + 1)).drop (i - 2)).map Pt.y).sum /
            ((((pts.take (i + 1)).drop (i - 2)).length : ℚ)) }) ∧
      movingAvg exPts 3 = exPtsOut := by
  intro pts
  have hwin : ¬ (3 : ℕ) ≤ 1 := by norm_num
  refine ⟨?_, ?_, ?_⟩
  · simp [movingAvg, hwin]
  · intro i p hp
    obtain ⟨hi, hval⟩ := List.getElem?_eq_some_iff.mp hp
    have hlen : i < (movingAvg pts 3).length := by
      simpa [movingAvg, hwin] using hi
    rw [List.getElem?_eq_getElem hlen]
    simp only [movingAvg, if_neg hwin, List.getElem_mapIdx, hval]
  · show movingAvg exPts 3 = exPtsOut
    have hlen : (movingAvg exPts 3).length = exPts.length := by
      simp [movingAvg, hwin]
    apply List.ext_getElem?
    intro i
    match i with
    | 0 =>
        simp only [movingAvg, if_neg hwin]
        rw [show exPtsOut[0]? = some { x := 1, y := 60, t := "a", id := 11 } from by decide]
        rw [List.getElem?_eq_getElem (by decide), List.getElem_mapIdx]
        norm_num [exPts, exPtsOut]
    | 1 =>
        simp only [movingAvg, if_neg hwin]
        rw [show exPtsOut[1]? = some { x := 2, y := 65, t := "b", id := 12 } from by decide]
        rw [List.getElem?_eq_getElem (by decide), List.getElem_mapIdx]
        norm_num [exPts, exPtsOut]
    | 2 =>
        simp only [movingAvg, if_neg hwin]
        rw [show exPtsOut[2]? = some { x := 3, y := 70, t := "c", id := 13 } from by decide]
        rw [List.getElem?_eq_getElem (by decide), List.getElem_mapIdx]
        norm_num [exPts, exPtsOut]
    | 3 =>
        simp only [movingAvg, if_neg hwin]
        rw [show exPtsOut[3]? = some { x := 4, y := 80, t := "d", id := 14 } from by decide]
        rw [List.getElem?_eq_getElem (by decide), List.getElem_mapIdx]
        norm_num [exPts, exPtsOut]
    | (n + 4) =>
        rw [List.getElem?_eq_none, List.getElem?_eq_none]
        · show (4 : ℕ) ≤ n + 4
          omega
        · rw [hlen]
          show (4 : ℕ) ≤ n + 4
          omega

/-- Witness for C5: smoothing applied at index 1 of the example series
keeps x, timestamp and id and averages the first two scores. -/
theorem movingAvg_spec_w :
    (movingAvg exPts 3)[1]? =
      some { x := 2, y := (((exPts.take 2).drop 0).map Pt.y).sum /
        ((((exPts.take 2).drop 0).length : ℚ)), t := "b", id := 12 } :=
  (movingAvg_spec exPts).2.1 1 { x := 2, y := 70, t := "b", id := 12 } (by decide)

/-- C6: the parse step of the normalizer returns the JSON-parsed structure
exactly when the input is a string whose trimmed form looks like a JSON
object or array and parses successfully; on parse failure it returns the
original string unchanged; every other value passes through unchanged.  The
function is total by construction, which models "never throws": the
`try/catch` appears only as the `Option.getD` fallback. -/
theorem parseMaybeJSON_spec :
    ∀ parse : String → Option JSVal,
      (∀ (s : String) (j : JSVal), jsonLooking (jsTrim s) = true → parse (jsTrim s) = some j →
        parseMaybeJSON parse (JSVal.str s) = j) ∧
      (∀ s : String, jsonLooking (jsTrim s) = true → parse (jsTrim s) = none →
        parseMaybeJSON parse (JSVal.str s) = JSVal.str s) ∧
      (∀ s : String, jsonLooking (jsTrim s) = false →
        parseMaybeJSON parse (JSVal.str s) = JSVal.str s) ∧
      (∀ v : JSVal, (∀ s : String, v ≠ JSVal.str s) → parseMaybeJSON parse v = v) := by
  intro parse
  refine ⟨?_, ?_, ?_, ?_⟩
  · intro s j hlook hparse
    simp [parseMaybeJSON, hlook, hparse]
  · intro s hlook hparse
    simp [parseMaybeJSON, hlook, hparse]
  · intro s hlook
    simp [parseMaybeJSON, hlook]
  · intro v hv
    cases v with
    | str s => exact absurd rfl (hv s)
    | num q => rfl
    | boolean b => rfl
    | null => rfl
    | arr xs => rfl
    | obj fields => rfl

/-- Witness for C6: the concrete parser maps the padded object literal to
the parsed value 80, leaves the non-JSON-looking string "not json
\x7bbroken" unchanged, and passes a number through unchanged. -/
theorem parseMaybeJSON_spec_w :
    parseMaybeJSON parseW (JSVal.str " \x7b\"score\":80\x7d ") = JSVal.num 80 ∧
      parseMaybeJSON parseW (JSVal.str "not json \x7bbroken") =
        JSVal.str "not json \x7bbroken" ∧
      parseMaybeJSON parseW (JSVal.num 3) = JSVal.num 3 := by
  refine ⟨?_, ?_, ?_⟩
  · exact (parseMaybeJSON_spec parseW).1 " \x7b\"score\":80\x7d " (JSVal.num 80)
      (by decide) (by rfl)
  · exact (parseMaybeJSON_spec parseW).2.2.1 "not json \x7bbroken" (by decide)
  · exact (parseMaybeJSON_spec parseW).2.2.2 (JSVal.num 3) (fun s h => JSVal.noConfusion h)

/-- C7 (amended): the exporter emits only id, date and the five category
score columns — its output is unchanged when every transcript is removed —
and a cell containing a comma is wrapped in double quotes with internal
double quotes doubled. -/
theorem exportCsv_transcript_free :
    ∀ (iso : ℤ → String) (numStr : ℚ → String) (hist : List HistoryItem),
      exportCsv iso numStr (hist.map eraseTranscript) = exportCsv iso numStr hist ∧
      csvEscape "Hello, world" = "\"Hello, world\"" := by
  intro iso numStr hist
  constructor
  · have h : (hist.map eraseTranscript).map (csvRow iso numStr) =
        hist.map (csvRow iso numStr) := by
      rw [List.map_map]
      exact List.map_congr_left fun it _ => rfl
    simp only [exportCsv, h]
  · decide

/-- Counterexample to C7 as stated: the CSV produced for a history whose
first transcript is "Hello, world" does not contain the quoted
transcript anywhere — the transcript is not among the exported columns. -/
theorem exportCsv_no_transcript_cex :
    strHasSub (exportCsv isoW numW exHist7) "\"Hello, world\"" = false := by
  decide

/-- Witness for C7 (amended): on the concrete two-record history the
export is unchanged by removing transcripts. -/
theorem exportCsv_transcript_free_w :
    exportCsv isoW numW (exHist7.map eraseTranscript) = exportCsv isoW numW exHist7 :=
  (exportCsv_transcript_free isoW numW exHist7).1

/-- The hover fold, started from a first candidate, returns a candidate
that attains the minimum, and every candidate strictly before the winner
has a strictly larger value (the first minimizer wins ties). -/
theorem pickGo_spec {α : Type} (f : α → ℚ) :
    ∀ (l : List α) (b : α),
      ∃ c u v, l.foldl (pickStep f) (some b) = some c ∧ b :: l = u ++ c :: v ∧
        (∀ x ∈ u, f c < f x) ∧ ∀ x ∈ b :: l, f c ≤ f x := by
  intro l
  induction l with
  | nil =>
      intro b
      refine ⟨b, [], [], rfl, rfl, by simp, ?_⟩
      intro x hx
      rw [List.mem_singleton.mp hx]
  | cons x t ih =>
      intro b
      simp only [List.foldl_cons]
      by_cases hx : f x < f b
      · have hstep : pickStep f (some b) x = some x := by
          simp [pickStep, hx]
        rw [hstep]
        obtain ⟨c, u, v, h1, h2, h3, h4⟩ := ih x
        refine ⟨c, b :: u, v, h1, by rw [List.cons_append, ← h2], ?_, ?_⟩
        · intro z hz
          rcases List.mem_cons.mp hz with rfl | hz
          · exact lt_of_le_of_lt (h4 x (List.mem_cons_self x t)) hx
          · exact h3 z hz
        · intro z hz
          rcases List.mem_cons.mp hz with rfl | hz
          · exact le_of_lt (lt_of_le_of_lt (h4 x (List.mem_cons_self x t)) hx)
          · exact h4 z hz
      · have hstep : pickStep f (some b) x = some b := by
          simp [pickStep, hx]
        rw [hstep]
        obtain ⟨c, u, v, h1, h2, h3, h4⟩ := ih b
        have hbx : f b ≤ f x := not_lt.mp hx
        cases u with
        | nil =>
            simp only [List.nil_append] at h2
            injection h2 with hb ht
            refine ⟨c, [], x :: t, h1, by rw [List.nil_append, hb], by simp, ?_⟩
            intro z hz
            rcases List.mem_cons.mp hz with rfl | hz
            · exact h4 z (List.mem_cons_self z t)
            · rcases List.mem_cons.mp hz with rfl | hz
              · exact le_trans (hb ▸ le_refl (f c)) hbx
              · exact h4 z (List.mem_cons_of_mem b (ht ▸ hz))
        | cons b0 u2 =>
            injection h2 with hb ht
            have hcb : f c < f b := hb ▸ h3 b0 (List.mem_cons_self b0 u2)
            refine ⟨c, b :: x :: u2, v, h1, ?_, ?_, ?_⟩
            · rw [ht]
              rfl
            · intro z hz
              rcases List.mem_cons.mp hz with rfl | hz
              · exact hcb
              · rcases List.mem_cons.mp hz with rfl | hz
                · exact lt_of_lt_of_le hcb hbx
                · exact h3 z (List.mem_cons_of_mem b0 hz)
            · intro z hz
              rcases List.mem_cons.mp hz with rfl | hz
              · exact hcb.le
              · rcases List.mem_cons.mp hz with rfl | hz
                · exact (lt_of_lt_of_le hcb hbx).le
                · exact h4 z (List.mem_cons_of_mem b hz)

/-- C8: hover resolution scans every point of every visible series
projected through the chart scales and returns the candidate minimizing
the screen-space Euclidean distance (squared distances compare
identically), ties broken in favour of the first candidate in iteration
order; a pointer exactly at the coordinates of a projected point yields a
result at distance zero whose projection equals the pointer. -/
theorem handleMouse_spec :
    ∀ (series : List Series) (xs : ℤ → ℚ) (ys : ℚ → ℚ) (mx my : ℚ),
      (hoverCands series = [] → handleMouse series xs ys mx my = none) ∧
      (∀ sp : Series × Pt, handleMouse series xs ys mx my = some sp →
        ∃ u v, hoverCands series = u ++ sp :: v ∧
          (∀ q ∈ u, dist2 xs ys mx my sp.2 < dist2 xs ys mx my q.2) ∧
          ∀ q ∈ hoverCands series, dist2 xs ys mx my sp.2 ≤ dist2 xs ys mx my q.2) ∧
      (∀ (s : Series) (p : Pt), (s, p) ∈ hoverCands series → mx = xs p.x → my = ys p.y →
        ∃ sp : Series × Pt, handleMouse series xs ys mx my = some sp ∧
          dist2 xs ys mx my sp.2 = 0 ∧ xs sp.2.x = mx ∧ ys sp.2.y = my) := by
  intro series xs ys mx my
  refine ⟨?_, ?_, ?_⟩
  · intro h
    simp [handleMouse, pickFirstMin, h]
  · intro sp hsp
    cases hc : hoverCands series with
    | nil =>
        unfold handleMouse pickFirstMin at hsp
        rw [hc] at hsp
        simp at hsp
    | cons c cs =>
        unfold handleMouse pickFirstMin at hsp
        rw [hc, List.foldl_cons] at hsp
        obtain ⟨c2, u, v, h1, h2, h3, h4⟩ :=
          pickGo_spec (fun q => dist2 xs ys mx my q.2) cs c
        have hres : c2 = sp := by
          have h1' : (some c2 : Option (Series × Pt)) = some sp := h1.symm.trans hsp
          exact Option.some_inj.mp h1'
        subst hres
        exact ⟨u, v, h2, h3, h4⟩
  · intro s p hmem hmx hmy
    cases hc : hoverCands series with
    | nil =>
        rw [hc] at hmem
        simp at hmem
    | cons c cs =>
        obtain ⟨c2, u, v, h1, h2, h3, h4⟩ :=
          pickGo_spec (fun q => dist2 xs ys mx my q.2) cs c
        have hres : handleMouse series xs ys mx my = some c2 := by
          unfold handleMouse pickFirstMin
          rw [hc, List.foldl_cons]
          exact h1
        rw [hc] at hmem
        have hple : dist2 xs ys mx my c2.2 ≤ dist2 xs ys mx my p := h4 (s, p) hmem
        have hzero : dist2 xs ys mx my p = 0 := by
          unfold dist2
          rw [← hmx, ← hmy]
          ring
        have hnn : 0 ≤ dist2 xs ys mx my c2.2 :=
          add_nonneg (sq_nonneg _) (sq_nonneg _)
        have heq : dist2 xs ys mx my c2.2 = 0 := le_antisymm (hzero ▸ hple) hnn
        have hx2 : (xs c2.2.x - mx) ^ 2 = 0 := by
          have ha := sq_nonneg (xs c2.2.x - mx)
          have hb := sq_nonneg (ys c2.2.y - my)
          unfold dist2 at heq
          nlinarith
        have hy2 : (ys c2.2.y - my) ^ 2 = 0 := by
          have ha := sq_nonneg (xs c2.2.x - mx)
          have hb := sq_nonneg (ys c2.2.y - my)
          unfold dist2 at heq
          nlinarith
        refine ⟨c2, hres, heq, ?_, ?_⟩
        · exact sub_eq_zero.mp (pow_eq_zero_iff two_ne_zero |>.mp hx2)
        · exact sub_eq_zero.mp (pow_eq_zero_iff two_ne_zero |>.mp hy2)

/-- Witness for C8: with the pointer exactly on the projected second point
of the first example series, hover resolution returns a zero-distance
point projecting onto the pointer. -/
theorem handleMouse_spec_w :
    ∃ sp : Series × Pt, handleMouse exSeries xsW ysW 10 140 = some sp ∧
      dist2 xsW ysW 10 140 sp.2 = 0 ∧ xsW sp.2.x = 10 ∧ ysW sp.2.y = 140 := by
  refine (handleMouse_spec exSeries xsW ysW 10 140).2.2
    { key := "overall", label := "Overall", color := "#22d3ee",
      points := [{ x := 0, y := 50, t := "t0", id := 1 }, { x := 1, y := 60, t := "t1", id := 2 }] }
    { x := 1, y := 60, t := "t1", id := 2 } ?_ ?_ ?_
  · simp [hoverCands, exSeries]
  · norm_num [xsW]
  · norm_num [ysW]

/-- A `min`-fold is bounded by its initial value. -/
theorem foldl_min_le_init : ∀ (t : List ℤ) (a : ℤ), t.foldl min a ≤ a := by
  intro t
  induction t with
  | nil => intro a; exact le_refl a
  | cons x t ih =>
      intro a
      exact le_trans (ih (min a x)) (min_le_left a x)

/-- A `min`-fold is bounded by every member of the list. -/
theorem foldl_min_le_mem : ∀ (t : List ℤ) (a x : ℤ), x ∈ t → t.foldl min a ≤ x := by
  intro t
  induction t with
  | nil => intro a x hx; simp at hx
  | cons y t ih =>
      intro a x hx
      rcases List.mem_cons.mp hx with rfl | hx
      · exact le_trans (foldl_min_le_init t (min a x)) (min_le_right a x)
      · exact ih (min a y) x hx

/-- A `max`-fold dominates its initial value. -/
theorem foldl_max_ge_init : ∀ (t : List ℤ) (a : ℤ), a ≤ t.foldl max a := by
  intro t
  induction t with
  | nil => intro a; exact le_refl a
  | cons x t ih =>
      intro a
      exact le_trans (le_max_left a x) (ih (max a x))

/-- A `max`-fold dominates every member of the list. -/
theorem foldl_max_ge_mem : ∀ (t : List ℤ) (a x : ℤ), x ∈ t → x ≤ t.foldl max a := by
  intro t
  induction t with
  | nil => intro a x hx; simp at hx
  | cons y t ih =>
      intro a x hx
      rcases List.mem_cons.mp hx with rfl | hx
      · exact le_trans (le_max_right a x) (foldl_max_ge_init t (max a x))
      · exact ih (max a y) x hx

/-- C9: over a non-empty set of point timestamps, the horizontal scale maps
`[min x, max x]` linearly onto `[padding, width - padding]` (the minimum to
`padding`, the maximum to `width - padding` when the span is positive, and
every in-range input in between); when all points share one timestamp the
denominator is taken as 1, making the projection an everywhere-defined
affine map, and the denominator is positive for every input. -/
theorem xScale_spec :
    ∀ xsl : List ℤ, xsl ≠ [] →
      (∀ x ∈ xsl, listMin xsl ≤ x ∧ x ≤ listMax xsl) ∧
      xScale (listMin xsl) (listMax xsl) (listMin xsl) = chartPad ∧
      (listMin xsl < listMax xsl →
        xScale (listMin xsl) (listMax xsl) (listMax xsl) = chartW - chartPad) ∧
      (listMax xsl = listMin xsl → ∀ x : ℤ,
        xScale (listMin xsl) (listMax xsl) x =
          chartPad + ((x : ℚ) - (listMin xsl : ℚ)) * (chartW - chartPad * 2)) ∧
      (0 : ℚ) < max 1 ((listMax xsl : ℚ) - (listMin xsl : ℚ)) ∧
      ∀ x : ℤ, listMin xsl ≤ x → x ≤ listMax xsl →
        chartPad ≤ xScale (listMin xsl) (listMax xsl) x ∧
        xScale (listMin xsl) (listMax xsl) x ≤ chartW - chartPad := by
  intro xsl hne
  refine ⟨?_, ?_, ?_, ?_, ?_, ?_⟩
  · intro x hx
    match xsl, hne with
    | a :: t, _ =>
        rcases List.mem_cons.mp hx with rfl | hx
        · exact ⟨foldl_min_le_init t x, foldl_max_ge_init t x⟩
        · exact ⟨foldl_min_le_mem t a x hx, foldl_max_ge_mem t a x hx⟩
  · unfold xScale
    norm_num
  · intro hlt
    unfold xScale
    have hint : (1 : ℤ) ≤ listMax xsl - listMin xsl := by omega
    have h1 : (1 : ℚ) ≤ (listMax xsl : ℚ) - (listMin xsl : ℚ) := by exact_mod_cast hint
    have hnz : (listMax xsl : ℚ) - (listMin xsl : ℚ) ≠ 0 := by
      intro h
      rw [h] at h1
      norm_num at h1
    rw [max_eq_right h1, div_self hnz]
    norm_num [chartW, chartPad]
  · intro heq x
    unfold xScale
    rw [heq]
    norm_num
  · exact lt_max_of_lt_left one_pos
  · intro x hxm hxM
    unfold xScale
    have hD : (0 : ℚ) < max 1 ((listMax xsl : ℚ) - (listMin xsl : ℚ)) :=
      lt_max_of_lt_left one_pos
    have hnum : (0 : ℚ) ≤ (x : ℚ) - (listMin xsl : ℚ) := by
      have : (0 : ℤ) ≤ x - listMin xsl := by omega
      exact_mod_cast this
    have hub : (x : ℚ) - (listMin xsl : ℚ) ≤
        max 1 ((listMax xsl : ℚ) - (listMin xsl : ℚ)) := by
      refine le_trans ?_ (le_max_right 1 _)
      have : (x : ℤ) - listMin xsl ≤ listMax xsl - listMin xsl := by omega
      exact_mod_cast this
    have hr0 : 0 ≤ ((x : ℚ) - (listMin xsl : ℚ)) /
        max 1 ((listMax xsl : ℚ) - (listMin xsl : ℚ)) := div_nonneg hnum hD.le
    have hr1 : ((x : ℚ) - (listMin xsl : ℚ)) /
        max 1 ((listMax xsl : ℚ) - (listMin xsl : ℚ)) ≤ 1 := (div_le_one hD).mpr hub
    have hc : (0 : ℚ) ≤ chartW - chartPad * 2 := by norm_num [chartW, chartPad]
    constructor
    · have hprod : 0 ≤ ((x : ℚ) - (listMin xsl : ℚ)) /
          max 1 ((listMax xsl : ℚ) - (listMin xsl : ℚ)) * (chartW - chartPad * 2) :=
        mul_nonneg hr0 hc
      linarith
    · have hprod : ((x : ℚ) - (listMin xsl : ℚ)) /
          max 1 ((listMax xsl : ℚ) - (listMin xsl : ℚ)) * (chartW - chartPad * 2) ≤
          chartW - chartPad * 2 := mul_le_of_le_one_left hc hr1
      have hcw : chartPad + (chartW - chartPad * 2) = chartW - chartPad := by
        norm_num [chartW, chartPad]
      linarith

/-- Witness for C9: over timestamps [5, 3, 9] the scale keeps the in-range
input 5 inside the `[padding, width - padding]` band. -/
theorem xScale_spec_w :
    chartPad ≤ xScale (listMin [5, 3, 9]) (listMax [5, 3, 9]) 5 ∧
      xScale (listMin [5, 3, 9]) (listMax [5, 3, 9]) 5 ≤ chartW - chartPad := by
  have h := xScale_spec [5, 3, 9] (by decide)
  exact h.2.2.2.2.2 5 (by decide) (by decide)

/-- The key of a built series is the name of its category. -/
theorem mkSeries_key (iso : ℤ → String) (base : List HistoryItem) (smooth : Bool)
    (label : String) (k : Cat) (color : String) :
    (mkSeries iso base smooth label k color).key = catName k := rfl

/-- C10: the series builder returns, in order, exactly the series of the
categories whose key the visibility map does not bind to `false`; a key
that is absent (undefined) or bound to `true` is kept, so a series is
omitted if and only if its key is bound to exactly `false`. -/
theorem basePoints_visibility :
    ∀ (iso : ℤ → String) (hist : List HistoryItem) (now : ℤ) (r : Range)
      (smooth : Bool) (visible : String → Option Bool),
      (basePoints iso hist now r smooth visible).map Series.key =
        (["overall", "opening", "content", "delivery", "grammar"]).filter (visPred visible) ∧
      ∀ n : String, visPred visible n = true ↔ visible n ≠ some false := by
  intro iso hist now r smooth visible
  constructor
  · unfold basePoints
    cases h1 : visPred visible "overall" <;>
      cases h2 : visPred visible "opening" <;>
        cases h3 : visPred visible "content" <;>
          cases h4 : visPred visible "delivery" <;>
            cases h5 : visPred visible "grammar" <;>
              simp [List.filter_cons, mkSeries_key, catName, h1, h2, h3, h4, h5]
  · intro n
    unfold visPred
    cases hv : visible n with
    | none => simp
    | some b => cases b <;> simp

/-- Witness for C10: with delivery hidden and grammar unbound, the returned
keys are exactly the other four, and the predicate semantics holds at the
two interesting bindings. -/
theorem basePoints_visibility_w :
    (basePoints isoW [] 0 Range.all true
        (fun n => if n = "delivery" then some false else
          if n = "grammar" then none else some true)).map Series.key =
      ["overall", "opening", "content", "grammar"] ∧
      (visPred (fun n => if n = "delivery" then some false else
          if n = "grammar" then none else some true) "grammar" = true ↔
        (fun n => if n = "delivery" then some false else
          if n = "grammar" then none else some true) "grammar" ≠ some false) := by
  have h := basePoints_visibility isoW [] 0 Range.all true
    (fun n => if n = "delivery" then some false else
      if n = "grammar" then none else some true)
  refine ⟨?_, h.2 "grammar"⟩
  rw [h.1]
  decide

end OpenSpeak
